import Mathlib

/-!
Verification of the book-splitter partitioning engine.

The definitions below are a shallow embedding of the repository's core logic:

* `epubStep` / `epubGo` / `splitPointsEpub` embed the chapter-based greedy
  partition loop of `epub_to_markdown.py` (`split_epub`, lines 89-115) and
  `epub_processor.py` (`determine_split_points`, lines 146-183); the two
  Python functions have identical partitioning logic, so one embedding
  covers both.  Units are represented by their word counts (`List Nat`,
  word counts are lengths of regex match lists, hence non-negative) and
  `max_words` by an `Int` (a Python int that the CLI may receive as any
  integer).  The Python comparison `current_word_count >= 0.4 * max_words`
  is a float comparison; it is modelled by the exact rational comparison
  `5 * cwc >= 2 * maxW`.  For every concrete input evaluated in this file
  the two comparisons agree (the operands are far from the rounding
  boundary of `0.4`).

* `closestBoundary` / `pdfStep` / `pdfGo` / `splitPointsPdf` embed the
  page-based loop of `pdf_to_markdown.py` (`determine_split_points`,
  lines 93-161), with the section-boundary list passed as a parameter
  (the Python code computes it by `detect_section_boundaries` and then
  only reads it).  `closest_boundary > i - 5` over Python ints is
  modelled as `b + 5 > i` over `Nat`, which is equivalent.

* `partsFrom` / `partitions` embed how the renderers materialise parts
  from split points (`create_markdown_files` in `pdf_to_markdown.py`,
  the output loops of `epub_to_markdown.py` and `epub_processor.py`):
  `part = units[part_start : split_point + 1]`, then
  `part_start = split_point + 1`, starting from `0`.

* `splitLinesCh`, `stripCh`, the `pat*` matchers, `scanLines`,
  `unitFlagCount` and `detect` embed `detect_section_boundaries` of
  `pdf_to_markdown.py` (lines 163-202), including the exact break
  structure of its nested loops.  Python's `re` character classes and
  `str.strip`/`str.lower` are modelled on ASCII text (all inputs used in
  the theorems are ASCII).

* `splitBook` / `mainExitCode` embed the format dispatch of
  `splitter.py` (`split_book`, lines 32-106) and the exit-code logic of
  its `main` (lines 155-176); `cliValidateMaxWords` embeds the
  `max_words <= 0` validation shared by all three CLI `main`s.
-/

/-- Loop state of both partition loops: the split points accumulated so
far (`split_points`), the running word count (`current_word_count`) and
the units accumulated for the current part (`current_pages` /
`current_chapters`, represented by their word counts). -/
structure SplitState where
  splits : List Nat
  cwc : Nat
  cur : List Nat
deriving DecidableEq

/-- One iteration of the chapter-based loop
(`epub_to_markdown.py` lines 93-111, `epub_processor.py` lines 150-169). -/
def epubStep (maxW : Int) (strict : Bool) (i : Nat) (wc : Nat) (s : SplitState) : SplitState :=
  if (s.cwc : Int) + (wc : Int) > maxW ∧ s.cur ≠ [] then
    if strict = true ∨ 5 * (s.cwc : Int) ≥ 2 * maxW then
      -- split before the current chapter
      { splits := s.splits ++ [i - 1], cwc := wc, cur := [wc] }
    else
      -- add the chapter anyway and split after it
      { splits := s.splits ++ [i], cwc := 0, cur := [] }
  else
    -- add the chapter to the current part
    { splits := s.splits, cwc := s.cwc + wc, cur := s.cur ++ [wc] }

/-- The chapter-based loop over the unit sequence, `i` being the index of
the next unit. -/
def epubGo (maxW : Int) (strict : Bool) : Nat → SplitState → List Nat → SplitState
  | _, s, [] => s
  | i, s, wc :: rest => epubGo maxW strict (i + 1) (epubStep maxW strict i wc s) rest

/-- Trailing emission shared by all variants: `if current: split_points.append(len(units) - 1)`. -/
def finalizeSplits (units : List Nat) (s : SplitState) : List Nat :=
  if s.cur = [] then s.splits else s.splits ++ [units.length - 1]

/-- Split points of the chapter-based partitioner
(`split_epub` lines 89-115 / `determine_split_points` of `epub_processor.py`). -/
def splitPointsEpub (units : List Nat) (maxW : Int) (strict : Bool) : List Nat :=
  finalizeSplits units (epubGo maxW strict 0 ⟨[], 0, []⟩ units)

/-- The inner search of `determine_split_points` (`pdf_to_markdown.py`
lines 124-129): the largest boundary index that is `≤ i`, found by a
linear pass keeping the running best. -/
def cbGo (i : Nat) (acc : Option Nat) : List Nat → Option Nat
  | [] => acc
  | b :: rest =>
    if b ≤ i then
      match acc with
      | none => cbGo i (some b) rest
      | some c => if b > c then cbGo i (some b) rest else cbGo i (some c) rest
    else cbGo i acc rest

/-- `closest_boundary` computed from the boundary list at position `i`. -/
def closestBoundary (bds : List Nat) (i : Nat) : Option Nat := cbGo i none bds

/-- One iteration of the page-based loop
(`pdf_to_markdown.py` lines 119-146). -/
def pdfStep (units : List Nat) (maxW : Int) (strict : Bool) (bds : List Nat)
    (i : Nat) (wc : Nat) (s : SplitState) : SplitState :=
  if (s.cwc : Int) + (wc : Int) > maxW ∧ s.cur ≠ [] then
    match (if strict = true ∧ bds ≠ [] then closestBoundary bds i else none) with
    | some b =>
      if b + 5 > i then
        -- split at the boundary: pages[closest_boundary+1 : i+1] stays in the accumulator
        { splits := s.splits ++ [b],
          cwc := ((units.drop (b + 1)).take (i - b)).sum,
          cur := (units.drop (b + 1)).take (i - b) }
      else
        { splits := s.splits ++ [i - 1], cwc := wc, cur := [wc] }
    | none => { splits := s.splits ++ [i - 1], cwc := wc, cur := [wc] }
  else
    { splits := s.splits, cwc := s.cwc + wc, cur := s.cur ++ [wc] }

/-- The page-based loop over the unit sequence. -/
def pdfGo (units : List Nat) (maxW : Int) (strict : Bool) (bds : List Nat) :
    Nat → SplitState → List Nat → SplitState
  | _, s, [] => s
  | i, s, wc :: rest => pdfGo units maxW strict bds (i + 1) (pdfStep units maxW strict bds i wc s) rest

/-- Split points of the page-based partitioner
(`determine_split_points` of `pdf_to_markdown.py`, boundary list as a
parameter). -/
def splitPointsPdf (units : List Nat) (maxW : Int) (strict : Bool) (bds : List Nat) : List Nat :=
  finalizeSplits units (pdfGo units maxW strict bds 0 ⟨[], 0, []⟩ units)

/-- Materialisation of parts from split points, starting a part at
`part_start` and ending it at the split point (inclusive):
`units[part_start : split_point + 1]`. -/
def partsFrom (units : List Nat) : Nat → List Nat → List (List Nat)
  | _, [] => []
  | start, sp :: rest => (units.drop start).take (sp + 1 - start) :: partsFrom units (sp + 1) rest

/-- The partition list produced from a full run (parts start at index 0). -/
def partitions (units : List Nat) (splits : List Nat) : List (List Nat) :=
  partsFrom units 0 splits

/-- The start index of the part that a further split point would close:
one past the last split point so far, or `start` if none. -/
def nextStart (start : Nat) (splits : List Nat) : Nat :=
  match splits.getLast? with
  | none => start
  | some l => l + 1

/-! Boundary detector (`detect_section_boundaries`, `pdf_to_markdown.py`
lines 163-202). -/

/-- Python `text.split(sep)` for a one-character separator: always
non-empty, keeps empty segments. -/
def splitLinesCh : List Char → List (List Char)
  | [] => [[]]
  | c :: rest =>
    if c = '\n' then [] :: splitLinesCh rest
    else
      match splitLinesCh rest with
      | l :: ls => (c :: l) :: ls
      | [] => [[c]]

/-- Python `str.strip()` (ASCII whitespace model). -/
def stripCh (cs : List Char) : List Char :=
  ((cs.dropWhile Char.isWhitespace).reverse.dropWhile Char.isWhitespace).reverse

/-- Python `str.lower()` (ASCII model). -/
def lowerCh (cs : List Char) : List Char := cs.map Char.toLower

/-- Consume a literal prefix. -/
def matchLit : List Char → List Char → Option (List Char)
  | [], cs => some cs
  | _ :: _, [] => none
  | l :: ls, c :: cs => if c = l then matchLit ls cs else none

/-- Consume one-or-more characters satisfying `p` (regex `X+` for a
character class `X`, greedy; the following pattern element is always
disjoint from `p` in the patterns below, so greediness is exact). -/
def matchPlus (p : Char → Bool) : List Char → Option (List Char)
  | [] => none
  | c :: cs => if p c then some (cs.dropWhile p) else none

/-- Regex `^\s*chapter\s+\d+` on an (already stripped and lowered) line. -/
def patChapter (cs : List Char) : Bool :=
  match matchLit ("chapter".toList) (cs.dropWhile Char.isWhitespace) with
  | none => false
  | some r =>
    match matchPlus Char.isWhitespace r with
    | none => false
    | some r2 => (matchPlus Char.isDigit r2).isSome

/-- Regex `^\s*\d+\.\s+` (numbered section such as "1. Introduction"). -/
def patNumbered (cs : List Char) : Bool :=
  match matchPlus Char.isDigit (cs.dropWhile Char.isWhitespace) with
  | none => false
  | some r =>
    match matchLit (".".toList) r with
    | none => false
    | some r2 => (matchPlus Char.isWhitespace r2).isSome

/-- Regex `^\s*section\s+\d+`. -/
def patSection (cs : List Char) : Bool :=
  match matchLit ("section".toList) (cs.dropWhile Char.isWhitespace) with
  | none => false
  | some r =>
    match matchPlus Char.isWhitespace r with
    | none => false
    | some r2 => (matchPlus Char.isDigit r2).isSome

/-- Regex `^\s*part\s+\d+`. -/
def patPart (cs : List Char) : Bool :=
  match matchLit ("part".toList) (cs.dropWhile Char.isWhitespace) with
  | none => false
  | some r =>
    match matchPlus Char.isWhitespace r with
    | none => false
    | some r2 => (matchPlus Char.isDigit r2).isSome

/-- First-match-wins over the four heading patterns: one append at most
for the pattern loop of a line (the inner `break`). -/
def anyChapterPattern (cs : List Char) : Bool :=
  patChapter cs || patNumbered cs || patSection cs || patPart cs

/-- The line loop of `detect_section_boundaries` for one unit, counting
how many times the unit's index is appended.  `lines5` is the list of
the unit's first five lines (`text.split('\n')[:5]`); the recursion runs
over the same list.  Per line: the pattern loop appends at most once
(inner break), then the short-title check may append once more and break
out of the line loop. -/
def scanLines (lines5 : List (List Char)) : List (List Char) → Nat
  | [] => 0
  | l :: rest =>
    let line := lowerCh (stripCh l)
    let pat : Nat := if anyChapterPattern line then 1 else 0
    if 1 < lines5.length ∧ line.length < 50 ∧ 3 < line.length ∧
        stripCh ((lines5.drop 1).headD []) = [] then
      pat + 1
    else
      pat + scanLines lines5 rest

/-- Number of times one unit's index is appended to `boundaries`. -/
def unitFlagCount (text : String) : Nat :=
  let lines5 := (splitLinesCh text.toList).take 5
  scanLines lines5 lines5

/-- The boundary list built unit by unit (each unit appends its own index
`unitFlagCount` times, in order). -/
def detectFrom : Nat → List String → List Nat
  | _, [] => []
  | i, t :: rest => List.replicate (unitFlagCount t) i ++ detectFrom (i + 1) rest

/-- `detect_section_boundaries` over the units' page texts. -/
def detect (texts : List String) : List Nat := detectFrom 0 texts

/-! Unified CLI dispatch (`splitter.py`). -/

/-- Input format, as decided from the input file extension. -/
inductive InFmt | epub | pdf
deriving DecidableEq

/-- Output format selector. -/
inductive OutFmt | markdown | epub | pdf
deriving DecidableEq

/-- The dispatch of `split_book` (`splitter.py` lines 46-106): supported
combinations delegate to a converter; the three unimplemented
combinations print an unsupported-conversion error and return the empty
list.  `convert` stands for the delegated converter's output list. -/
def splitBook (inf : InFmt) (outf : OutFmt) (convert : InFmt → OutFmt → List String) : List String :=
  match inf, outf with
  | .epub, .markdown => convert .epub .markdown
  | .epub, .epub => convert .epub .epub
  | .pdf, .markdown => convert .pdf .markdown
  | .pdf, .pdf => []
  | .epub, .pdf => []
  | .pdf, .epub => []

/-- Exit-code logic of `main` in `splitter.py` (lines 165-172):
`if result: ... return 0 else: ... return 1`. -/
def mainExitCode (result : List String) : Nat :=
  if result = [] then 1 else 0

/-- The `max_words` validation shared by the CLI `main` functions
(`splitter.py` lines 142-144 and likewise in the other entry points):
`some 1` is the early non-zero exit, `none` means validation passes. -/
def cliValidateMaxWords (maxWords : Int) : Option Nat :=
  if maxWords ≤ 0 then some 1 else none

/-- Error taxonomy of the spec's partition contract. -/
inductive SplitError | invalidConfiguration
deriving DecidableEq

deriving instance DecidableEq for Except

/-- The chapter-based core run as actually implemented: the partition
loop of `split_epub` contains no raise statement and no validation, so
the faithful fallible view always succeeds. -/
def epubCoreRun (units : List Nat) (maxW : Int) (strict : Bool) : Except SplitError (List Nat) :=
  Except.ok (splitPointsEpub units maxW strict)

/-- Modelled from the spec: the partition contract of section 4.2, which
requires the core to fail with an `InvalidConfiguration` error when
`max_words <= 0`.  This definition follows the spec's words and exists
only to be compared with `epubCoreRun`, the embedding of the source. -/
def partitionContractSpec (units : List Nat) (maxW : Int) (strict : Bool) :
    Except SplitError (List Nat) :=
  if maxW ≤ 0 then Except.error SplitError.invalidConfiguration
  else Except.ok (splitPointsEpub units maxW strict)

/-! General helper lemmas. -/

lemma lastq_snoc (l : List Nat) (x : Nat) : (l ++ [x]).getLast? = some x :=
  List.getLast?_concat l

lemma nextStart_cons (start sp : Nat) (rest : List Nat) :
    nextStart start (sp :: rest) = nextStart (sp + 1) rest := by
  cases rest with
  | nil => rfl
  | cons r rs =>
      show (match (sp :: r :: rs).getLast? with
        | none => start
        | some l => l + 1) = _
      rw [show (sp :: r :: rs).getLast? = (r :: rs).getLast? from rfl]
      rfl

lemma partsFrom_snoc (units : List Nat) :
    ∀ (splits : List Nat) (start x : Nat),
      partsFrom units start (splits ++ [x]) =
        partsFrom units start splits ++
          [(units.drop (nextStart start splits)).take (x + 1 - nextStart start splits)] := by
  intro splits
  induction splits with
  | nil => intro start x; simp [partsFrom, nextStart]
  | cons sp rest ih =>
      intro start x
      rw [List.cons_append]
      show partsFrom units start (sp :: (rest ++ [x])) = _
      rw [partsFrom, partsFrom, ih (sp + 1) x, nextStart_cons]
      simp

lemma drop_cons_lt {units : List Nat} {i wc : Nat} {rest : List Nat}
    (h : units.drop i = wc :: rest) : i < units.length := by
  by_contra hle
  push_neg at hle
  rw [List.drop_eq_nil_of_le hle] at h
  exact List.noConfusion h

lemma drop_cons_succ {units : List Nat} {i wc : Nat} {rest : List Nat}
    (h : units.drop i = wc :: rest) : units.drop (i + 1) = rest := by
  rw [← List.tail_drop, h]
  rfl

lemma slice_snoc {units : List Nat} {i wc : Nat} {rest : List Nat}
    (h : units.drop i = wc :: rest) {start : Nat} (hle : start ≤ i) :
    (units.drop start).take (i + 1 - start) = (units.drop start).take (i - start) ++ [wc] := by
  rw [show i + 1 - start = (i - start) + 1 from by omega, List.take_add, List.drop_drop,
    show start + (i - start) = i from by omega, h]
  rfl

lemma sum_dropLast_le (l : List Nat) : l.dropLast.sum ≤ l.sum := by
  rcases eq_or_ne l [] with h | h
  · subst h; simp
  · conv_rhs => rw [← List.dropLast_append_getLast h]
    rw [List.sum_append]
    omega

lemma take_len_parts {units : List Nat} {start len : Nat} (h1 : start + len ≤ units.length) :
    ((units.drop start).take len).length = len := by
  rw [List.length_take, List.length_drop]
  omega

/-! Characterisation of `closestBoundary`. -/

lemma cbGo_spec (i : Nat) :
    ∀ (bds : List Nat) (acc : Option Nat), (∀ a, acc = some a → a ≤ i) →
      (cbGo i acc bds = none → (acc = none ∧ ∀ b ∈ bds, i < b)) ∧
      (∀ c, cbGo i acc bds = some c →
        (acc = some c ∨ c ∈ bds) ∧ c ≤ i ∧ (∀ a, acc = some a → a ≤ c) ∧
          ∀ b ∈ bds, b ≤ i → b ≤ c) := by
  intro bds
  induction bds with
  | nil =>
      intro acc hacc
      constructor
      · intro h
        exact ⟨h, by simp⟩
      · intro c hc
        have heq : acc = some c := hc
        refine ⟨Or.inl heq, hacc c heq, fun a ha => ?_, by simp⟩
        rw [heq] at ha
        injection ha with h
        omega
  | cons b rest ih =>
      intro acc hacc
      cases acc with
      | none =>
          by_cases hb : b ≤ i
          · have hstep : cbGo i none (b :: rest) = cbGo i (some b) rest := by
              simp [cbGo, hb]
            have hIH := ih (some b) (fun a ha => by injection ha with h; omega)
            constructor
            · intro hnone
              rw [hstep] at hnone
              exact absurd (hIH.1 hnone).1 (by simp)
            · intro c hc
              rw [hstep] at hc
              obtain ⟨hmem, hci, hup, hall⟩ := hIH.2 c hc
              refine ⟨?_, hci, fun a ha => by exact absurd ha (by simp), ?_⟩
              · rcases hmem with h | h
                · injection h with h
                  exact Or.inr (by rw [h]; exact List.mem_cons_self _ _)
                · exact Or.inr (List.mem_cons_of_mem _ h)
              · intro x hx hxi
                rcases List.mem_cons.1 hx with h | h
                · subst h; exact hup x rfl
                · exact hall x h hxi
          · have hstep : cbGo i none (b :: rest) = cbGo i none rest := by
              simp [cbGo, hb]
            have hIH := ih none (fun a ha => by exact absurd ha (by simp))
            constructor
            · intro hnone
              rw [hstep] at hnone
              obtain ⟨h1, h2⟩ := hIH.1 hnone
              refine ⟨rfl, fun x hx => ?_⟩
              rcases List.mem_cons.1 hx with h | h
              · subst h; omega
              · exact h2 x h
            · intro c hc
              rw [hstep] at hc
              obtain ⟨hmem, hci, hup, hall⟩ := hIH.2 c hc
              refine ⟨?_, hci, hup, ?_⟩
              · rcases hmem with h | h
                · exact Or.inl h
                · exact Or.inr (List.mem_cons_of_mem _ h)
              · intro x hx hxi
                rcases List.mem_cons.1 hx with h | h
                · subst h; omega
                · exact hall x h hxi
      | some a0 =>
          have ha0 : a0 ≤ i := hacc a0 rfl
          by_cases hb : b ≤ i
          · by_cases hgt : b > a0
            · have hstep : cbGo i (some a0) (b :: rest) = cbGo i (some b) rest := by
                simp [cbGo, hb, hgt]
              have hIH := ih (some b) (fun a ha => by injection ha with h; omega)
              constructor
              · intro hnone
                rw [hstep] at hnone
                exact absurd (hIH.1 hnone).1 (by simp)
              · intro c hc
                rw [hstep] at hc
                obtain ⟨hmem, hci, hup, hall⟩ := hIH.2 c hc
                have hbc : b ≤ c := hup b rfl
                refine ⟨?_, hci, fun a ha => by injection ha with h; omega, ?_⟩
                · rcases hmem with h | h
                  · injection h with h
                    exact Or.inr (by rw [h]; exact List.mem_cons_self _ _)
                  · exact Or.inr (List.mem_cons_of_mem _ h)
                · intro x hx hxi
                  rcases List.mem_cons.1 hx with h | h
                  · subst h; omega
                  · exact hall x h hxi
            · have hstep : cbGo i (some a0) (b :: rest) = cbGo i (some a0) rest := by
                simp [cbGo, hb, hgt]
              have hIH := ih (some a0) (fun a ha => by injection ha with h; omega)
              constructor
              · intro hnone
                rw [hstep] at hnone
                exact absurd (hIH.1 hnone).1 (by simp)
              · intro c hc
                rw [hstep] at hc
                obtain ⟨hmem, hci, hup, hall⟩ := hIH.2 c hc
                have ha0c : a0 ≤ c := hup a0 rfl
                refine ⟨?_, hci, fun a ha => by injection ha with h; omega, ?_⟩
                · rcases hmem with h | h
                  · exact Or.inl h
                  · exact Or.inr (List.mem_cons_of_mem _ h)
                · intro x hx hxi
                  rcases List.mem_cons.1 hx with h | h
                  · subst h; omega
                  · exact hall x h hxi
          · have hstep : cbGo i (some a0) (b :: rest) = cbGo i (some a0) rest := by
              simp [cbGo, hb]
            have hIH := ih (some a0) hacc
            constructor
            · intro hnone
              rw [hstep] at hnone
              exact absurd (hIH.1 hnone).1 (by simp)
            · intro c hc
              rw [hstep] at hc
              obtain ⟨hmem, hci, hup, hall⟩ := hIH.2 c hc
              refine ⟨?_, hci, hup, ?_⟩
              · rcases hmem with h | h
                · exact Or.inl h
                · exact Or.inr (List.mem_cons_of_mem _ h)
              · intro x hx hxi
                rcases List.mem_cons.1 hx with h | h
                · subst h; omega
                · exact hall x h hxi

lemma closestBoundary_some {bds : List Nat} {i b : Nat}
    (h : closestBoundary bds i = some b) :
    b ∈ bds ∧ b ≤ i ∧ ∀ c ∈ bds, c ≤ i → c ≤ b := by
  have hs := (cbGo_spec i bds none (fun a ha => by exact absurd ha (by simp))).2 b h
  refine ⟨?_, hs.2.1, hs.2.2.2⟩
  rcases hs.1 with h1 | h1
  · exact absurd h1 (by simp)
  · exact h1

lemma closestBoundary_none {bds : List Nat} {i : Nat}
    (h : closestBoundary bds i = none) : ∀ b ∈ bds, i < b :=
  ((cbGo_spec i bds none (fun a ha => by exact absurd ha (by simp))).1 h).2

lemma closestBoundary_exists {bds : List Nat} {i b : Nat}
    (hb : b ∈ bds) (hle : b ≤ i) : ∃ c, closestBoundary bds i = some c ∧ b ≤ c := by
  cases h : closestBoundary bds i with
  | none => exact absurd hle (by have := closestBoundary_none h b hb; omega)
  | some c =>
      obtain ⟨_, _, hmax⟩ := closestBoundary_some h
      exact ⟨c, rfl, hmax b hb hle⟩

lemma closestBoundary_succ_le {bds : List Nat} {i b : Nat}
    (h : closestBoundary bds (i + 1) = some b) (hle : b ≤ i) :
    closestBoundary bds i = some b := by
  obtain ⟨hmem, _, hmax⟩ := closestBoundary_some h
  obtain ⟨c, hc, hbc⟩ := closestBoundary_exists hmem hle
  obtain ⟨hcmem, hci, _⟩ := closestBoundary_some hc
  have : c ≤ b := hmax c hcmem (by omega)
  rw [hc]
  congr 1
  omega

/-! Loop invariant of the chapter-based partitioner.  Writing
`start := i - s.cur.length` for the start index of the part being
accumulated: the accumulator is exactly the slice `units[start : i]`,
its word count is the slice's sum, the split points are strictly
increasing and end at `start - 1`, the parts they close concatenate to
`units[0 : start]`, a multi-unit accumulator never exceeds the budget,
every closed multi-unit part exceeded the budget by at most its last
unit, and in strict mode an oversized unit is always alone in its part
and alone in the accumulator. -/
structure EpubInv (units : List Nat) (maxW : Int) (strict : Bool) (s : SplitState) (i : Nat) : Prop where
  len_le : s.cur.length ≤ i
  i_le : i ≤ units.length
  cur_eq : s.cur = (units.drop (i - s.cur.length)).take s.cur.length
  cwc_eq : s.cwc = s.cur.sum
  chain : List.Chain' (· < ·) s.splits
  bound : ∀ x ∈ s.splits, x + 1 ≤ i
  last_eq : (s.splits = [] ∧ s.cur.length = i) ∨
    (s.splits.getLast? = some (i - s.cur.length - 1) ∧ 1 ≤ i - s.cur.length)
  join_eq : (partsFrom units 0 s.splits).flatten = units.take (i - s.cur.length)
  small : 2 ≤ s.cur.length → (s.cur.sum : Int) ≤ maxW
  good : ∀ p ∈ partsFrom units 0 s.splits, 2 ≤ p.length → ((p.dropLast.sum : Int) ≤ maxW)
  sing : strict = true →
    (∀ p ∈ partsFrom units 0 s.splits, ∀ u ∈ p, maxW < (u : Int) → p = [u]) ∧
    (∀ u ∈ s.cur, maxW < (u : Int) → s.cur = [u])

lemma epubInv_nextStart_eq {units : List Nat} {maxW : Int} {strict : Bool} {s : SplitState}
    {i : Nat} (h : EpubInv units maxW strict s i) :
    nextStart 0 s.splits = i - s.cur.length := by
  rcases h.last_eq with ⟨h1, h2⟩ | ⟨h1, h2⟩
  · rw [h1]
    show 0 = i - s.cur.length
    omega
  · simp only [nextStart, h1]
    omega

lemma epubInv_append {units : List Nat} {maxW : Int} {strict : Bool} {s : SplitState}
    {i wc : Nat} {rest : List Nat} (hdrop : units.drop i = wc :: rest)
    (hinv : EpubInv units maxW strict s i)
    (hno : ¬((s.cwc : Int) + (wc : Int) > maxW ∧ s.cur ≠ [])) :
    EpubInv units maxW strict ⟨s.splits, s.cwc + wc, s.cur ++ [wc]⟩ (i + 1) := by
  have hlt : i < units.length := drop_cons_lt hdrop
  have hlen : s.cur.length ≤ i := hinv.len_le
  have hstart : i + 1 - (s.cur ++ [wc]).length = i - s.cur.length := by
    simp only [List.length_append, List.length_cons, List.length_nil]
    omega
  refine ⟨?_, ?_, ?_, ?_, ?_, ?_, ?_, ?_, ?_, ?_, ?_⟩
  · simp only [List.length_append, List.length_cons, List.length_nil]
    omega
  · omega
  · show s.cur ++ [wc] = (units.drop (i + 1 - (s.cur ++ [wc]).length)).take (s.cur ++ [wc]).length
    rw [hstart, show (s.cur ++ [wc]).length = s.cur.length + 1 from by simp]
    have hsl := slice_snoc hdrop (show i - s.cur.length ≤ i from by omega)
    rw [show i + 1 - (i - s.cur.length) = s.cur.length + 1 from by omega,
      show i - (i - s.cur.length) = s.cur.length from by omega] at hsl
    rw [hsl, ← hinv.cur_eq]
  · show s.cwc + wc = (s.cur ++ [wc]).sum
    rw [List.sum_append, hinv.cwc_eq]
    simp
  · exact hinv.chain
  · intro x hx
    have := hinv.bound x hx
    omega
  · rcases hinv.last_eq with ⟨h1, h2⟩ | ⟨h1, h2⟩
    · left
      constructor
      · exact h1
      · simp only [List.length_append, List.length_cons, List.length_nil]
        omega
    · right
      rw [hstart]
      exact ⟨h1, h2⟩
  · show (partsFrom units 0 s.splits).flatten = units.take (i + 1 - (s.cur ++ [wc]).length)
    rw [hstart]
    exact hinv.join_eq
  · show 2 ≤ (s.cur ++ [wc]).length → (((s.cur ++ [wc]).sum : Nat) : Int) ≤ maxW
    intro h2
    have hcur : s.cur ≠ [] := by
      intro hnil
      rw [hnil, List.nil_append, List.length_cons, List.length_nil] at h2
      omega
    have hle : (s.cwc : Int) + (wc : Int) ≤ maxW := by
      by_contra hgt
      exact hno ⟨by omega, hcur⟩
    rw [List.sum_append, show ([wc] : List Nat).sum = wc from by simp, ← hinv.cwc_eq]
    push_cast at hle ⊢
    omega
  · exact hinv.good
  · intro hstrict
    refine ⟨(hinv.sing hstrict).1, ?_⟩
    intro u hu hover
    rcases List.mem_append.1 hu with hmem | hmem
    · have hcur : s.cur ≠ [] := List.ne_nil_of_mem hmem
      have hsingle := (hinv.sing hstrict).2 u hmem hover
      have hsum : s.cwc = u := by rw [hinv.cwc_eq, hsingle]; simp
      have hle : (s.cwc : Int) + (wc : Int) ≤ maxW := by
        by_contra hgt
        exact hno ⟨by omega, hcur⟩
      rw [hsum] at hle
      have : (0 : Int) ≤ (wc : Int) := Int.ofNat_nonneg wc
      omega
    · have hwu : u = wc := by simpa using hmem
      subst hwu
      rcases eq_or_ne s.cur [] with hnil | hcur
      · rw [hnil]
        rfl
      · have hle : (s.cwc : Int) + (u : Int) ≤ maxW := by
          by_contra hgt
          exact hno ⟨by omega, hcur⟩
        have : (0 : Int) ≤ (s.cwc : Int) := Int.ofNat_nonneg s.cwc
        omega

lemma epubInv_closeBefore {units : List Nat} {maxW : Int} {strict : Bool} {s : SplitState}
    {i wc : Nat} {rest : List Nat} (hdrop : units.drop i = wc :: rest)
    (hinv : EpubInv units maxW strict s i)
    (hov : (s.cwc : Int) + (wc : Int) > maxW ∧ s.cur ≠ []) :
    EpubInv units maxW strict ⟨s.splits ++ [i - 1], wc, [wc]⟩ (i + 1) := by
  have hlt : i < units.length := drop_cons_lt hdrop
  have hlen : s.cur.length ≤ i := hinv.len_le
  have hpos : 1 ≤ s.cur.length := List.length_pos.2 hov.2
  have hi1 : 1 ≤ i := by omega
  have hstart_le : i - s.cur.length ≤ i - 1 := by omega
  have hns : nextStart 0 s.splits = i - s.cur.length := epubInv_nextStart_eq hinv
  have hcur_len : i - (i - s.cur.length) = s.cur.length := by omega
  have hslice_cur : (units.drop (i - s.cur.length)).take (i - (i - s.cur.length)) = s.cur := by
    rw [hcur_len]
    exact hinv.cur_eq.symm
  refine ⟨?_, ?_, ?_, ?_, ?_, ?_, ?_, ?_, ?_, ?_, ?_⟩
  · show ([wc] : List Nat).length ≤ i + 1
    simp only [List.length_cons, List.length_nil]
    omega
  · omega
  · show ([wc] : List Nat) = (units.drop (i + 1 - ([wc] : List Nat).length)).take ([wc] : List Nat).length
    simp only [List.length_cons, List.length_nil]
    rw [show i + 1 - 1 = i from by omega, hdrop]
    rfl
  · show wc = ([wc] : List Nat).sum
    simp
  · show List.Chain' (· < ·) (s.splits ++ [i - 1])
    rw [List.chain'_append]
    refine ⟨hinv.chain, List.chain'_singleton _, ?_⟩
    intro x hx y hy
    rcases hinv.last_eq with ⟨h1, _⟩ | ⟨h1, h2⟩
    · rw [h1] at hx
      exact absurd hx (by simp)
    · rw [h1] at hx
      have hxv : i - s.cur.length - 1 = x := by simpa using hx
      have hyv : i - 1 = y := by simpa using hy
      omega
  · intro x hx
    rcases List.mem_append.1 hx with h | h
    · have := hinv.bound x h
      omega
    · have : x = i - 1 := by simpa using h
      omega
  · right
    rw [lastq_snoc]
    constructor
    · show some (i - 1) = some (i + 1 - ([wc] : List Nat).length - 1)
      rfl
    · show 1 ≤ i + 1 - ([wc] : List Nat).length
      simp only [List.length_cons, List.length_nil]
      omega
  · show (partsFrom units 0 (s.splits ++ [i - 1])).flatten =
      units.take (i + 1 - ([wc] : List Nat).length)
    rw [partsFrom_snoc, hns, List.flatten_append, hinv.join_eq]
    simp only [List.flatten_cons, List.flatten_nil, List.append_nil]
    rw [show i - 1 + 1 - (i - s.cur.length) = i - (i - s.cur.length) from by omega]
    rw [show (↑(i + 1) - ([wc] : List Nat).length : Nat) = i from by
      simp only [List.length_cons, List.length_nil]; omega]
    rw [← List.take_add (units) (i - s.cur.length) (i - (i - s.cur.length)),
      show i - s.cur.length + (i - (i - s.cur.length)) = i from by omega]
  · show 2 ≤ ([wc] : List Nat).length → _
    intro h2
    simp only [List.length_cons, List.length_nil] at h2
    omega
  · intro p hp
    have hp' : p ∈ partsFrom units 0 s.splits ++
        [(units.drop (nextStart 0 s.splits)).take (i - 1 + 1 - nextStart 0 s.splits)] := by
      rw [← partsFrom_snoc]
      exact hp
    rcases List.mem_append.1 hp' with h | h
    · exact hinv.good p h
    · have hpe : p = (units.drop (nextStart 0 s.splits)).take (i - 1 + 1 - nextStart 0 s.splits) := by
        simpa using h
      rw [hns, show i - 1 + 1 - (i - s.cur.length) = i - (i - s.cur.length) from by omega,
        hslice_cur] at hpe
      subst hpe
      intro hp2
      have hsum := hinv.small hp2
      have hg : (s.cur.dropLast.sum : Int) ≤ (s.cur.sum : Int) :=
        Int.ofNat_le.2 (sum_dropLast_le s.cur)
      omega
  · intro hstrict
    constructor
    · intro p hp u hu hover
      have hp' : p ∈ partsFrom units 0 s.splits ++
          [(units.drop (nextStart 0 s.splits)).take (i - 1 + 1 - nextStart 0 s.splits)] := by
        rw [← partsFrom_snoc]
        exact hp
      rcases List.mem_append.1 hp' with h | h
      · exact (hinv.sing hstrict).1 p h u hu hover
      · have hpe : p = (units.drop (nextStart 0 s.splits)).take (i - 1 + 1 - nextStart 0 s.splits) := by
          simpa using h
        rw [hns, show i - 1 + 1 - (i - s.cur.length) = i - (i - s.cur.length) from by omega,
          hslice_cur] at hpe
        subst hpe
        exact (hinv.sing hstrict).2 u hu hover
    · intro u hu hover
      have : u = wc := by simpa using hu
      subst this
      rfl

lemma epubInv_absorb {units : List Nat} {maxW : Int} {strict : Bool} {s : SplitState}
    {i wc : Nat} {rest : List Nat} (hdrop : units.drop i = wc :: rest)
    (hinv : EpubInv units maxW strict s i)
    (hov : (s.cwc : Int) + (wc : Int) > maxW ∧ s.cur ≠ [])
    (hth : ¬(strict = true ∨ 5 * (s.cwc : Int) ≥ 2 * maxW)) :
    EpubInv units maxW strict ⟨s.splits ++ [i], 0, []⟩ (i + 1) := by
  push_neg at hth
  have hlt : i < units.length := drop_cons_lt hdrop
  have hlen : s.cur.length ≤ i := hinv.len_le
  have hpos : 1 ≤ s.cur.length := List.length_pos.2 hov.2
  have hns : nextStart 0 s.splits = i - s.cur.length := epubInv_nextStart_eq hinv
  have hcwc_le : (s.cwc : Int) ≤ maxW := by
    have h5 : 5 * (s.cwc : Int) < 2 * maxW := by omega
    have h0 : (0 : Int) ≤ (s.cwc : Int) := Int.ofNat_nonneg s.cwc
    omega
  have hslice : (units.drop (i - s.cur.length)).take (i + 1 - (i - s.cur.length)) =
      s.cur ++ [wc] := by
    rw [slice_snoc hdrop (show i - s.cur.length ≤ i from by omega),
      show i - (i - s.cur.length) = s.cur.length from by omega, ← hinv.cur_eq]
  refine ⟨?_, ?_, ?_, ?_, ?_, ?_, ?_, ?_, ?_, ?_, ?_⟩
  · show ([] : List Nat).length ≤ i + 1
    simp
  · omega
  · show ([] : List Nat) = (units.drop (i + 1 - ([] : List Nat).length)).take ([] : List Nat).length
    simp
  · show 0 = ([] : List Nat).sum
    simp
  · show List.Chain' (· < ·) (s.splits ++ [i])
    rw [List.chain'_append]
    refine ⟨hinv.chain, List.chain'_singleton _, ?_⟩
    intro x hx y hy
    rcases hinv.last_eq with ⟨h1, _⟩ | ⟨h1, h2⟩
    · rw [h1] at hx
      exact absurd hx (by simp)
    · rw [h1] at hx
      have hxv : i - s.cur.length - 1 = x := by simpa using hx
      have hyv : i = y := by simpa using hy
      omega
  · intro x hx
    rcases List.mem_append.1 hx with h | h
    · have := hinv.bound x h
      omega
    · have : x = i := by simpa using h
      omega
  · right
    rw [lastq_snoc]
    constructor
    · show some i = some (i + 1 - ([] : List Nat).length - 1)
      simp
    · show 1 ≤ i + 1 - ([] : List Nat).length
      simp
  · show (partsFrom units 0 (s.splits ++ [i])).flatten =
      units.take (i + 1 - ([] : List Nat).length)
    rw [partsFrom_snoc, hns, List.flatten_append, hinv.join_eq]
    simp only [List.flatten_cons, List.flatten_nil, List.append_nil, List.length_nil,
      Nat.sub_zero]
    rw [← List.take_add units (i - s.cur.length) (i + 1 - (i - s.cur.length)),
      show i - s.cur.length + (i + 1 - (i - s.cur.length)) = i + 1 from by omega]
  · show 2 ≤ ([] : List Nat).length → _
    intro h2
    simp at h2
  · intro p hp
    have hp' : p ∈ partsFrom units 0 s.splits ++
        [(units.drop (nextStart 0 s.splits)).take (i + 1 - nextStart 0 s.splits)] := by
      rw [← partsFrom_snoc]
      exact hp
    rcases List.mem_append.1 hp' with h | h
    · exact hinv.good p h
    · have hpe : p = (units.drop (nextStart 0 s.splits)).take (i + 1 - nextStart 0 s.splits) := by
        simpa using h
      rw [hns, hslice] at hpe
      subst hpe
      intro _
      rw [show (s.cur ++ [wc]).dropLast = s.cur from List.dropLast_concat, ← hinv.cwc_eq]
      exact hcwc_le
  · intro hstrict
    exact absurd hstrict hth.1

lemma epubStep_inv {units : List Nat} {maxW : Int} {strict : Bool} {s : SplitState}
    {i wc : Nat} {rest : List Nat} (hdrop : units.drop i = wc :: rest)
    (hinv : EpubInv units maxW strict s i) :
    EpubInv units maxW strict (epubStep maxW strict i wc s) (i + 1) := by
  by_cases hov : (s.cwc : Int) + (wc : Int) > maxW ∧ s.cur ≠ []
  · by_cases hth : strict = true ∨ 5 * (s.cwc : Int) ≥ 2 * maxW
    · have hstep : epubStep maxW strict i wc s =
          ⟨s.splits ++ [i - 1], wc, [wc]⟩ := by
        rw [epubStep, if_pos hov, if_pos hth]
      rw [hstep]
      exact epubInv_closeBefore hdrop hinv hov
    · have hstep : epubStep maxW strict i wc s = ⟨s.splits ++ [i], 0, []⟩ := by
        rw [epubStep, if_pos hov, if_neg hth]
      rw [hstep]
      exact epubInv_absorb hdrop hinv hov hth
  · have hstep : epubStep maxW strict i wc s = ⟨s.splits, s.cwc + wc, s.cur ++ [wc]⟩ := by
      rw [epubStep, if_neg hov]
    rw [hstep]
    exact epubInv_append hdrop hinv hov

lemma epubGo_inv {units : List Nat} {maxW : Int} {strict : Bool} :
    ∀ (rem : List Nat) (i : Nat) (s : SplitState),
      units.drop i = rem → EpubInv units maxW strict s i →
      EpubInv units maxW strict (epubGo maxW strict i s rem) units.length := by
  intro rem
  induction rem with
  | nil =>
      intro i s hdrop hinv
      have hlen : units.length ≤ i := List.drop_eq_nil_iff.1 hdrop
      have : i = units.length := le_antisymm hinv.i_le hlen
      rw [epubGo, ← this]
      exact hinv
  | cons wc rest ih =>
      intro i s hdrop hinv
      rw [epubGo]
      exact ih (i + 1) _ (drop_cons_succ hdrop) (epubStep_inv hdrop hinv)

lemma epubInv_init (units : List Nat) (maxW : Int) (strict : Bool) :
    EpubInv units maxW strict ⟨[], 0, []⟩ 0 := by
  refine ⟨?_, ?_, ?_, ?_, ?_, ?_, ?_, ?_, ?_, ?_, ?_⟩
  · simp
  · simp
  · simp
  · simp
  · simp
  · simp
  · left
    exact ⟨rfl, rfl⟩
  · simp [partsFrom]
  · intro h
    simp at h
  · intro p hp
    simp [partsFrom] at hp
  · intro _
    constructor
    · intro p hp
      simp [partsFrom] at hp
    · intro u hu
      simp at hu

lemma epub_run_inv (units : List Nat) (maxW : Int) (strict : Bool) :
    EpubInv units maxW strict (epubGo maxW strict 0 ⟨[], 0, []⟩ units) units.length :=
  epubGo_inv units 0 ⟨[], 0, []⟩ (by simp) (epubInv_init units maxW strict)

/-- Bundled facts about the finished chapter-based split-point list. -/
lemma epub_final_props (units : List Nat) (maxW : Int) (strict : Bool) :
    List.Chain' (· < ·) (splitPointsEpub units maxW strict) ∧
    (∀ x ∈ splitPointsEpub units maxW strict, x + 1 ≤ units.length) ∧
    (units = [] → splitPointsEpub units maxW strict = []) ∧
    (units ≠ [] →
      (splitPointsEpub units maxW strict).getLast? = some (units.length - 1)) ∧
    (partitions units (splitPointsEpub units maxW strict)).flatten = units ∧
    (∀ p ∈ partitions units (splitPointsEpub units maxW strict),
      2 ≤ p.length → ((p.dropLast.sum : Int) ≤ maxW)) ∧
    (strict = true →
      ∀ p ∈ partitions units (splitPointsEpub units maxW strict),
        ∀ u ∈ p, maxW < (u : Int) → p = [u]) := by
  have hinv := epub_run_inv units maxW strict
  set s := epubGo maxW strict 0 ⟨[], 0, []⟩ units with hs
  have hsp : splitPointsEpub units maxW strict = finalizeSplits units s := rfl
  by_cases hcur : s.cur = []
  · have hfin : splitPointsEpub units maxW strict = s.splits := by
      rw [hsp, finalizeSplits, if_pos hcur]
    have hlen0 : s.cur.length = 0 := by rw [hcur]; rfl
    rcases hinv.last_eq with ⟨h1, h2⟩ | ⟨h1, h2⟩
    · -- no splits and an empty accumulator: the input was empty
      have hnil : units = [] := by
        have := h2
        rw [hlen0] at this
        exact List.length_eq_zero.1 this.symm
      rw [hfin, h1]
      subst hnil
      refine ⟨by simp, by simp, fun _ => rfl, fun h => absurd rfl h, by simp [partitions, partsFrom], ?_, ?_⟩
      · intro p hp
        simp [partitions, partsFrom] at hp
      · intro _ p hp
        simp [partitions, partsFrom] at hp
    · rw [hlen0] at h1 h2
      have hne : units ≠ [] := by
        intro h
        rw [h] at h2
        simp at h2
      rw [hfin]
      refine ⟨hinv.chain, hinv.bound, fun h => absurd h hne, fun _ => ?_, ?_, hinv.good, ?_⟩
      · rw [h1]
        rfl
      · show (partsFrom units 0 s.splits).flatten = units
        rw [hinv.join_eq, hlen0, Nat.sub_zero, List.take_length]
      · intro hstrict
        exact (hinv.sing hstrict).1
  · have hfin : splitPointsEpub units maxW strict = s.splits ++ [units.length - 1] := by
      rw [hsp, finalizeSplits, if_neg hcur]
    have hpos : 1 ≤ s.cur.length := List.length_pos.2 hcur
    have hlen_le : s.cur.length ≤ units.length := hinv.len_le
    have hulen : 1 ≤ units.length := by omega
    have hne : units ≠ [] := by
      intro h
      rw [h] at hulen
      simp at hulen
    have hns : nextStart 0 s.splits = units.length - s.cur.length := by
      have := epubInv_nextStart_eq hinv
      exact this
    have hstart_le : units.length - s.cur.length ≤ units.length - 1 := by omega
    have hslice_cur :
        (units.drop (units.length - s.cur.length)).take
          (units.length - (units.length - s.cur.length)) = s.cur := by
      rw [show units.length - (units.length - s.cur.length) = s.cur.length from by omega]
      exact hinv.cur_eq.symm
    have hlink : ∀ x ∈ s.splits.getLast?, ∀ y ∈ ([units.length - 1] : List Nat).head?, x < y := by
      intro x hx y hy
      have hyv : units.length - 1 = y := by simpa using hy
      rcases hinv.last_eq with ⟨h1, _⟩ | ⟨h1, _⟩
      · rw [h1] at hx
        exact absurd hx (by simp)
      · rw [h1] at hx
        have hxv : units.length - s.cur.length - 1 = x := by simpa using hx
        omega
    have hjoin : (partsFrom units 0 (s.splits ++ [units.length - 1])).flatten = units := by
      rw [partsFrom_snoc, hns, List.flatten_append, hinv.join_eq]
      simp only [List.flatten_cons, List.flatten_nil, List.append_nil]
      rw [show units.length - 1 + 1 - (units.length - s.cur.length) =
          units.length - (units.length - s.cur.length) from by omega]
      rw [← List.take_add units (units.length - s.cur.length)
          (units.length - (units.length - s.cur.length)),
        show units.length - s.cur.length + (units.length - (units.length - s.cur.length)) =
          units.length from by omega, List.take_length]
    have hlastpart : ∀ p ∈ partsFrom units 0 (s.splits ++ [units.length - 1]),
        p ∈ partsFrom units 0 s.splits ∨ p = s.cur := by
      intro p hp
      rw [partsFrom_snoc] at hp
      rcases List.mem_append.1 hp with h | h
      · exact Or.inl h
      · right
        have hpe : p = (units.drop (nextStart 0 s.splits)).take
            (units.length - 1 + 1 - nextStart 0 s.splits) := by
          simpa using h
        rw [hns, show units.length - 1 + 1 - (units.length - s.cur.length) =
            units.length - (units.length - s.cur.length) from by omega, hslice_cur] at hpe
        exact hpe
    rw [hfin]
    refine ⟨?_, ?_, fun h => absurd h hne, fun _ => lastq_snoc _ _, hjoin, ?_, ?_⟩
    · rw [List.chain'_append]
      exact ⟨hinv.chain, List.chain'_singleton _, hlink⟩
    · intro x hx
      rcases List.mem_append.1 hx with h | h
      · have := hinv.bound x h
        omega
      · have : x = units.length - 1 := by simpa using h
        omega
    · intro p hp
      rcases hlastpart p hp with h | h
      · exact hinv.good p h
      · subst h
        intro h2
        have hsum := hinv.small h2
        have hg : (s.cur.dropLast.sum : Int) ≤ (s.cur.sum : Int) :=
          Int.ofNat_le.2 (sum_dropLast_le s.cur)
        omega
    · intro hstrict p hp
      rcases hlastpart p hp with h | h
      · exact (hinv.sing hstrict).1 p h
      · subst h
        exact (hinv.sing hstrict).2

/-! Loop invariant of the page-based partitioner.  Same bookkeeping as
`EpubInv` for the split points and coverage (with only a non-strict
chain in general, since repeated boundary splits can repeat a split
point), plus two facts about boundary bookkeeping: any usable closest
boundary is never before `start - 1` (`window`), and an accumulator
emptied by a boundary split at its own position leaves a boundary at
`i - 1` behind (`fresh`). -/
structure PdfInv (units : List Nat) (maxW : Int) (strict : Bool) (bds : List Nat)
    (s : SplitState) (i : Nat) : Prop where
  len_le : s.cur.length ≤ i
  i_le : i ≤ units.length
  chain : List.Chain' (· ≤ ·) s.splits
  chainS : strict = false ∨ bds = [] → List.Chain' (· < ·) s.splits
  bound : ∀ x ∈ s.splits, x + 1 ≤ i
  last_eq : (s.splits = [] ∧ s.cur.length = i) ∨
    (s.splits.getLast? = some (i - s.cur.length - 1) ∧ 1 ≤ i - s.cur.length)
  join_eq : (partsFrom units 0 s.splits).flatten = units.take (i - s.cur.length)
  window : s.cur ≠ [] → strict = true → bds ≠ [] →
    ∀ b, closestBoundary bds i = some b → i - s.cur.length ≤ b + 1 ∨ b + 5 ≤ i
  fresh : s.cur = [] → i = 0 ∨ ∃ b, closestBoundary bds i = some b ∧ i ≤ b + 1

lemma pdfInv_nextStart_eq {units : List Nat} {maxW : Int} {strict : Bool} {bds : List Nat}
    {s : SplitState} {i : Nat} (h : PdfInv units maxW strict bds s i) :
    nextStart 0 s.splits = i - s.cur.length := by
  rcases h.last_eq with ⟨h1, h2⟩ | ⟨h1, h2⟩
  · rw [h1]
    show 0 = i - s.cur.length
    omega
  · simp only [nextStart, h1]
    omega

lemma pdfInv_append {units : List Nat} {maxW : Int} {strict : Bool} {bds : List Nat}
    {s : SplitState} {i wc : Nat} {rest : List Nat} (hdrop : units.drop i = wc :: rest)
    (hinv : PdfInv units maxW strict bds s i)
    (_hno : ¬((s.cwc : Int) + (wc : Int) > maxW ∧ s.cur ≠ [])) :
    PdfInv units maxW strict bds ⟨s.splits, s.cwc + wc, s.cur ++ [wc]⟩ (i + 1) := by
  have hlt : i < units.length := drop_cons_lt hdrop
  have hlen : s.cur.length ≤ i := hinv.len_le
  have hstart : i + 1 - (s.cur ++ [wc]).length = i - s.cur.length := by
    simp only [List.length_append, List.length_cons, List.length_nil]
    omega
  refine ⟨?_, ?_, hinv.chain, hinv.chainS, ?_, ?_, ?_, ?_, ?_⟩
  · simp only [List.length_append, List.length_cons, List.length_nil]
    omega
  · omega
  · intro x hx
    have := hinv.bound x hx
    omega
  · rcases hinv.last_eq with ⟨h1, h2⟩ | ⟨h1, h2⟩
    · left
      refine ⟨h1, ?_⟩
      simp only [List.length_append, List.length_cons, List.length_nil]
      omega
    · right
      rw [hstart]
      exact ⟨h1, h2⟩
  · show (partsFrom units 0 s.splits).flatten = units.take (i + 1 - (s.cur ++ [wc]).length)
    rw [hstart]
    exact hinv.join_eq
  · intro _ hstrict hbds b' hcb'
    rw [hstart]
    rcases eq_or_ne s.cur [] with hnil | hcur
    · rcases hinv.fresh hnil with h0 | ⟨b0, hb0, hib0⟩
      · subst h0
        left
        omega
      · obtain ⟨hmem0, hle0, _⟩ := closestBoundary_some hb0
        obtain ⟨_, _, hmax'⟩ := closestBoundary_some hcb'
        have : b0 ≤ b' := hmax' b0 hmem0 (by omega)
        left
        rw [hnil]
        simp only [List.length_nil]
        omega
    · obtain ⟨_, hle', _⟩ := closestBoundary_some hcb'
      by_cases hb'i : b' ≤ i
      · have hcbi : closestBoundary bds i = some b' := closestBoundary_succ_le hcb' hb'i
        rcases hinv.window hcur hstrict hbds b' hcbi with h | h
        · left
          omega
        · right
          omega
      · left
        omega
  · intro habs
    exact absurd habs (by simp)

lemma pdfInv_normalSplit {units : List Nat} {maxW : Int} {strict : Bool} {bds : List Nat}
    {s : SplitState} {i wc : Nat} {rest : List Nat} (hdrop : units.drop i = wc :: rest)
    (hinv : PdfInv units maxW strict bds s i)
    (hov : (s.cwc : Int) + (wc : Int) > maxW ∧ s.cur ≠ [])
    (hnb : ∀ b, strict = true ∧ bds ≠ [] → closestBoundary bds i = some b → b + 5 ≤ i) :
    PdfInv units maxW strict bds ⟨s.splits ++ [i - 1], wc, [wc]⟩ (i + 1) := by
  have hlt : i < units.length := drop_cons_lt hdrop
  have hlen : s.cur.length ≤ i := hinv.len_le
  have hpos : 1 ≤ s.cur.length := List.length_pos.2 hov.2
  have hi1 : 1 ≤ i := by omega
  have hns : nextStart 0 s.splits = i - s.cur.length := pdfInv_nextStart_eq hinv
  refine ⟨?_, ?_, ?_, ?_, ?_, ?_, ?_, ?_, ?_⟩
  · show ([wc] : List Nat).length ≤ i + 1
    simp only [List.length_cons, List.length_nil]
    omega
  · omega
  · rw [List.chain'_append]
    refine ⟨hinv.chain, List.chain'_singleton _, ?_⟩
    intro x hx y hy
    have hyv : i - 1 = y := by simpa using hy
    rcases hinv.last_eq with ⟨h1, _⟩ | ⟨h1, h2⟩
    · rw [h1] at hx
      exact absurd hx (by simp)
    · rw [h1] at hx
      have hxv : i - s.cur.length - 1 = x := by simpa using hx
      omega
  · intro hmode
    rw [List.chain'_append]
    refine ⟨hinv.chainS hmode, List.chain'_singleton _, ?_⟩
    intro x hx y hy
    have hyv : i - 1 = y := by simpa using hy
    rcases hinv.last_eq with ⟨h1, _⟩ | ⟨h1, h2⟩
    · rw [h1] at hx
      exact absurd hx (by simp)
    · rw [h1] at hx
      have hxv : i - s.cur.length - 1 = x := by simpa using hx
      omega
  · intro x hx
    rcases List.mem_append.1 hx with h | h
    · have := hinv.bound x h
      omega
    · have : x = i - 1 := by simpa using h
      omega
  · right
    rw [lastq_snoc]
    constructor
    · show some (i - 1) = some (i + 1 - ([wc] : List Nat).length - 1)
      rfl
    · show 1 ≤ i + 1 - ([wc] : List Nat).length
      simp only [List.length_cons, List.length_nil]
      omega
  · show (partsFrom units 0 (s.splits ++ [i - 1])).flatten =
      units.take (i + 1 - ([wc] : List Nat).length)
    rw [partsFrom_snoc, hns, List.flatten_append, hinv.join_eq]
    simp only [List.flatten_cons, List.flatten_nil, List.append_nil]
    rw [show i - 1 + 1 - (i - s.cur.length) = i - (i - s.cur.length) from by omega]
    rw [show (↑(i + 1) - ([wc] : List Nat).length : Nat) = i from by
      simp only [List.length_cons, List.length_nil]; omega]
    rw [← List.take_add units (i - s.cur.length) (i - (i - s.cur.length)),
      show i - s.cur.length + (i - (i - s.cur.length)) = i from by omega]
  · intro _ hstrict hbds b' hcb'
    show i + 1 - ([wc] : List Nat).length ≤ b' + 1 ∨ b' + 5 ≤ i + 1
    simp only [List.length_cons, List.length_nil]
    by_cases hb'i : b' ≤ i
    · have hcbi : closestBoundary bds i = some b' := closestBoundary_succ_le hcb' hb'i
      right
      have := hnb b' ⟨hstrict, hbds⟩ hcbi
      omega
    · obtain ⟨_, hle', _⟩ := closestBoundary_some hcb'
      left
      omega
  · intro habs
    exact absurd habs (by simp)

lemma pdfInv_boundarySplit {units : List Nat} {maxW : Int} {strict : Bool} {bds : List Nat}
    {s : SplitState} {i wc b : Nat} {rest : List Nat} (hdrop : units.drop i = wc :: rest)
    (hinv : PdfInv units maxW strict bds s i)
    (hov : (s.cwc : Int) + (wc : Int) > maxW ∧ s.cur ≠ [])
    (hg : strict = true ∧ bds ≠ [])
    (hcb : closestBoundary bds i = some b) (hwin : b + 5 > i) :
    PdfInv units maxW strict bds
      ⟨s.splits ++ [b], ((units.drop (b + 1)).take (i - b)).sum,
        (units.drop (b + 1)).take (i - b)⟩ (i + 1) := by
  have hlt : i < units.length := drop_cons_lt hdrop
  have hlen : s.cur.length ≤ i := hinv.len_le
  have hpos : 1 ≤ s.cur.length := List.length_pos.2 hov.2
  have hi1 : 1 ≤ i := by omega
  obtain ⟨hbmem, hbi, _⟩ := closestBoundary_some hcb
  have hstart_b : i - s.cur.length ≤ b + 1 := by
    rcases hinv.window hov.2 hg.1 hg.2 b hcb with h | h
    · exact h
    · omega
  have hns : nextStart 0 s.splits = i - s.cur.length := pdfInv_nextStart_eq hinv
  have hslen : ((units.drop (b + 1)).take (i - b)).length = i - b :=
    take_len_parts (by omega)
  refine ⟨?_, ?_, ?_, ?_, ?_, ?_, ?_, ?_, ?_⟩
  · rw [hslen]
    omega
  · omega
  · rw [List.chain'_append]
    refine ⟨hinv.chain, List.chain'_singleton _, ?_⟩
    intro x hx y hy
    have hyv : b = y := by simpa using hy
    rcases hinv.last_eq with ⟨h1, _⟩ | ⟨h1, h2⟩
    · rw [h1] at hx
      exact absurd hx (by simp)
    · rw [h1] at hx
      have hxv : i - s.cur.length - 1 = x := by simpa using hx
      omega
  · intro hmode
    rcases hmode with h | h
    · rw [h] at hg
      exact absurd hg.1 (by simp)
    · exact absurd h hg.2
  · intro x hx
    rcases List.mem_append.1 hx with h | h
    · have := hinv.bound x h
      omega
    · have : x = b := by simpa using h
      omega
  · right
    rw [lastq_snoc, hslen]
    constructor
    · congr 1
      omega
    · omega
  · show (partsFrom units 0 (s.splits ++ [b])).flatten = _
    rw [partsFrom_snoc, hns, List.flatten_append, hinv.join_eq]
    simp only [List.flatten_cons, List.flatten_nil, List.append_nil]
    rw [hslen, show i + 1 - (i - b) = b + 1 from by omega,
      ← List.take_add units (i - s.cur.length) (b + 1 - (i - s.cur.length)),
      show i - s.cur.length + (b + 1 - (i - s.cur.length)) = b + 1 from by omega]
  · intro hcur' _ _ b'' hcb''
    rw [hslen]
    obtain ⟨_, hle'', hmax''⟩ := closestBoundary_some hcb''
    have hbb'' : b ≤ b'' := hmax'' b hbmem (by omega)
    left
    omega
  · intro hcur'
    have hc : (List.take (i - b) (List.drop (b + 1) units)) = [] := hcur'
    have hlen0 : i - b = 0 := by
      rw [← hslen, hc]
      rfl
    have hbeq : b = i := by omega
    right
    obtain ⟨c, hc, hbc⟩ := closestBoundary_exists hbmem (show b ≤ i + 1 from by omega)
    exact ⟨c, hc, by omega⟩

lemma pdfStep_inv {units : List Nat} {maxW : Int} {strict : Bool} {bds : List Nat}
    {s : SplitState} {i wc : Nat} {rest : List Nat} (hdrop : units.drop i = wc :: rest)
    (hinv : PdfInv units maxW strict bds s i) :
    PdfInv units maxW strict bds (pdfStep units maxW strict bds i wc s) (i + 1) := by
  by_cases hov : (s.cwc : Int) + (wc : Int) > maxW ∧ s.cur ≠ []
  · by_cases hg : strict = true ∧ bds ≠ []
    · cases hcb : closestBoundary bds i with
      | none =>
          have hstep : pdfStep units maxW strict bds i wc s =
              ⟨s.splits ++ [i - 1], wc, [wc]⟩ := by
            rw [pdfStep, if_pos hov, if_pos hg, hcb]
          rw [hstep]
          refine pdfInv_normalSplit hdrop hinv hov ?_
          intro b _ hb
          rw [hcb] at hb
          exact absurd hb (by simp)
      | some b =>
          by_cases hwin : b + 5 > i
          · have hstep : pdfStep units maxW strict bds i wc s =
                ⟨s.splits ++ [b], ((units.drop (b + 1)).take (i - b)).sum,
                  (units.drop (b + 1)).take (i - b)⟩ := by
              rw [pdfStep, if_pos hov, if_pos hg, hcb]
              show (if b + 5 > i then _ else _) = _
              rw [if_pos hwin]
            rw [hstep]
            exact pdfInv_boundarySplit hdrop hinv hov hg hcb hwin
          · have hstep : pdfStep units maxW strict bds i wc s =
                ⟨s.splits ++ [i - 1], wc, [wc]⟩ := by
              rw [pdfStep, if_pos hov, if_pos hg, hcb]
              show (if b + 5 > i then _ else _) = _
              rw [if_neg hwin]
            rw [hstep]
            refine pdfInv_normalSplit hdrop hinv hov ?_
            intro b' _ hb'
            rw [hcb] at hb'
            have : b' = b := by injection hb' with h; omega
            omega
    · have hstep : pdfStep units maxW strict bds i wc s =
          ⟨s.splits ++ [i - 1], wc, [wc]⟩ := by
        rw [pdfStep, if_pos hov, if_neg hg]
      rw [hstep]
      refine pdfInv_normalSplit hdrop hinv hov ?_
      intro b hgg _
      exact absurd hgg hg
  · have hstep : pdfStep units maxW strict bds i wc s =
        ⟨s.splits, s.cwc + wc, s.cur ++ [wc]⟩ := by
      rw [pdfStep, if_neg hov]
    rw [hstep]
    exact pdfInv_append hdrop hinv hov

lemma pdfGo_inv {units : List Nat} {maxW : Int} {strict : Bool} {bds : List Nat} :
    ∀ (rem : List Nat) (i : Nat) (s : SplitState),
      units.drop i = rem → PdfInv units maxW strict bds s i →
      PdfInv units maxW strict bds (pdfGo units maxW strict bds i s rem) units.length := by
  intro rem
  induction rem with
  | nil =>
      intro i s hdrop hinv
      have hlen : units.length ≤ i := List.drop_eq_nil_iff.1 hdrop
      have : i = units.length := le_antisymm hinv.i_le hlen
      rw [pdfGo, ← this]
      exact hinv
  | cons wc rest ih =>
      intro i s hdrop hinv
      rw [pdfGo]
      exact ih (i + 1) _ (drop_cons_succ hdrop) (pdfStep_inv hdrop hinv)

lemma pdfInv_init (units : List Nat) (maxW : Int) (strict : Bool) (bds : List Nat) :
    PdfInv units maxW strict bds ⟨[], 0, []⟩ 0 := by
  refine ⟨?_, ?_, ?_, ?_, ?_, ?_, ?_, ?_, ?_⟩
  · simp
  · simp
  · simp
  · intro _
    simp
  · simp
  · left
    exact ⟨rfl, rfl⟩
  · simp [partsFrom]
  · intro h
    exact absurd rfl h
  · intro _
    left
    rfl

lemma pdf_run_inv (units : List Nat) (maxW : Int) (strict : Bool) (bds : List Nat) :
    PdfInv units maxW strict bds (pdfGo units maxW strict bds 0 ⟨[], 0, []⟩ units)
      units.length :=
  pdfGo_inv units 0 ⟨[], 0, []⟩ (by simp) (pdfInv_init units maxW strict bds)

/-- Bundled facts about the finished page-based split-point list. -/
lemma pdf_final_props (units : List Nat) (maxW : Int) (strict : Bool) (bds : List Nat) :
    List.Chain' (· ≤ ·) (splitPointsPdf units maxW strict bds) ∧
    (strict = false ∨ bds = [] →
      List.Chain' (· < ·) (splitPointsPdf units maxW strict bds)) ∧
    (∀ x ∈ splitPointsPdf units maxW strict bds, x + 1 ≤ units.length) ∧
    (units = [] → splitPointsPdf units maxW strict bds = []) ∧
    (units ≠ [] →
      (splitPointsPdf units maxW strict bds).getLast? = some (units.length - 1)) ∧
    (partitions units (splitPointsPdf units maxW strict bds)).flatten = units := by
  have hinv := pdf_run_inv units maxW strict bds
  set s := pdfGo units maxW strict bds 0 ⟨[], 0, []⟩ units with hs
  have hsp : splitPointsPdf units maxW strict bds = finalizeSplits units s := rfl
  by_cases hcur : s.cur = []
  · have hfin : splitPointsPdf units maxW strict bds = s.splits := by
      rw [hsp, finalizeSplits, if_pos hcur]
    have hlen0 : s.cur.length = 0 := by rw [hcur]; rfl
    rcases hinv.last_eq with ⟨h1, h2⟩ | ⟨h1, h2⟩
    · have hnil : units = [] := by
        have := h2
        rw [hlen0] at this
        exact List.length_eq_zero.1 this.symm
      rw [hfin, h1]
      subst hnil
      exact ⟨by simp, fun _ => by simp, by simp, fun _ => rfl, fun h => absurd rfl h,
        by simp [partitions, partsFrom]⟩
    · rw [hlen0] at h1 h2
      have hne : units ≠ [] := by
        intro h
        rw [h] at h2
        simp at h2
      rw [hfin]
      refine ⟨hinv.chain, hinv.chainS, hinv.bound, fun h => absurd h hne, fun _ => ?_, ?_⟩
      · rw [h1]
        rfl
      · show (partsFrom units 0 s.splits).flatten = units
        rw [hinv.join_eq, hlen0, Nat.sub_zero, List.take_length]
  · have hfin : splitPointsPdf units maxW strict bds = s.splits ++ [units.length - 1] := by
      rw [hsp, finalizeSplits, if_neg hcur]
    have hpos : 1 ≤ s.cur.length := List.length_pos.2 hcur
    have hlen_le : s.cur.length ≤ units.length := hinv.len_le
    have hulen : 1 ≤ units.length := by omega
    have hne : units ≠ [] := by
      intro h
      rw [h] at hulen
      simp at hulen
    have hns : nextStart 0 s.splits = units.length - s.cur.length := pdfInv_nextStart_eq hinv
    have hjoin : (partsFrom units 0 (s.splits ++ [units.length - 1])).flatten = units := by
      rw [partsFrom_snoc, hns, List.flatten_append, hinv.join_eq]
      simp only [List.flatten_cons, List.flatten_nil, List.append_nil]
      rw [show units.length - 1 + 1 - (units.length - s.cur.length) =
          units.length - (units.length - s.cur.length) from by omega]
      rw [← List.take_add units (units.length - s.cur.length)
          (units.length - (units.length - s.cur.length)),
        show units.length - s.cur.length + (units.length - (units.length - s.cur.length)) =
          units.length from by omega, List.take_length]
    rw [hfin]
    refine ⟨?_, ?_, ?_, fun h => absurd h hne, fun _ => lastq_snoc _ _, hjoin⟩
    · rw [List.chain'_append]
      refine ⟨hinv.chain, List.chain'_singleton _, ?_⟩
      intro x hx y hy
      have hyv : units.length - 1 = y := by simpa using hy
      rcases hinv.last_eq with ⟨h1, _⟩ | ⟨h1, _⟩
      · rw [h1] at hx
        exact absurd hx (by simp)
      · rw [h1] at hx
        have hxv : units.length - s.cur.length - 1 = x := by simpa using hx
        omega
    · intro hmode
      rw [List.chain'_append]
      refine ⟨hinv.chainS hmode, List.chain'_singleton _, ?_⟩
      intro x hx y hy
      have hyv : units.length - 1 = y := by simpa using hy
      rcases hinv.last_eq with ⟨h1, _⟩ | ⟨h1, _⟩
      · rw [h1] at hx
        exact absurd hx (by simp)
      · rw [h1] at hx
        have hxv : units.length - s.cur.length - 1 = x := by simpa using hx
        omega
    · intro x hx
      rcases List.mem_append.1 hx with h | h
      · have := hinv.bound x h
        omega
      · have : x = units.length - 1 := by simpa using h
        omega

lemma partsFrom_ne_nil (units : List Nat) (start : Nat) {splits : List Nat}
    (h : splits ≠ []) : partsFrom units start splits ≠ [] := by
  cases splits with
  | nil => exact absurd rfl h
  | cons sp rest => simp [partsFrom]

/-- Parts cut at strictly increasing split points that stay inside the
unit list, the first no earlier than the current start, are never empty. -/
lemma parts_nonempty (units : List Nat) :
    ∀ (splits : List Nat) (start : Nat), List.Chain' (· < ·) splits →
      (∀ x ∈ splits, x + 1 ≤ units.length) →
      (∀ y, splits.head? = some y → start ≤ y) →
      ∀ p ∈ partsFrom units start splits, p ≠ [] := by
  intro splits
  induction splits with
  | nil =>
      intro start _ _ _ p hp
      simp [partsFrom] at hp
  | cons sp rest ih =>
      intro start hchain hbound hhead p hp
      rw [partsFrom] at hp
      rcases List.mem_cons.1 hp with h | h
      · subst h
        have hsp : sp + 1 ≤ units.length := hbound sp (List.mem_cons_self _ _)
        have hstart : start ≤ sp := hhead sp rfl
        intro hnil
        have hl := congrArg List.length hnil
        rw [List.length_take, List.length_drop, List.length_nil] at hl
        omega
      · have hc := List.chain'_cons'.1 hchain
        refine ih (sp + 1) hc.2 (fun x hx => hbound x (List.mem_cons_of_mem _ hx)) ?_ p h
        intro y hy
        have := hc.1 y hy
        omega

/-- Per-unit flag count of the boundary detector: at most one append per
scanned line from the pattern loop, plus at most one from the
short-title rule, which then breaks the line loop. -/
lemma scanLines_le (lines5 : List (List Char)) :
    ∀ ls : List (List Char), scanLines lines5 ls ≤ ls.length + 1 := by
  intro ls
  induction ls with
  | nil => simp [scanLines]
  | cons l rest ih =>
      simp only [scanLines, List.length_cons]
      split <;> split <;> omega

lemma unitFlagCount_le (t : String) : unitFlagCount t ≤ 6 := by
  rw [unitFlagCount]
  have h := scanLines_le ((splitLinesCh t.toList).take 5) ((splitLinesCh t.toList).take 5)
  have hlen : ((splitLinesCh t.toList).take 5).length ≤ 5 := List.length_take_le _ _
  omega

lemma detectFrom_count_lt (texts : List String) :
    ∀ j i, i < j → (detectFrom j texts).count i = 0 := by
  induction texts with
  | nil => intro j i _; rfl
  | cons t rest ih =>
      intro j i hij
      rw [detectFrom, List.count_append, List.count_replicate,
        if_neg (by simp; omega : ¬((j == i) = true)), ih (j + 1) i (by omega)]

lemma detectFrom_count_le (texts : List String) :
    ∀ j i, (detectFrom j texts).count i ≤ 6 := by
  induction texts with
  | nil => intro j i; simp [detectFrom]
  | cons t rest ih =>
      intro j i
      rw [detectFrom, List.count_append, List.count_replicate]
      by_cases hij : j = i
      · rw [if_pos (by simp [hij] : (j == i) = true), hij,
          detectFrom_count_lt rest (i + 1) i (by omega)]
        have := unitFlagCount_le t
        omega
      · rw [if_neg (by simp [hij] : ¬((j == i) = true))]
        have := ih (j + 1) i
        omega

/-! Claim theorems. -/

/-- Claim C1: for every unit sequence, every positive word budget, every
strict flag and every boundary set, the partition lists produced by the
chapter-based and the page-based partitioners cover the input exactly:
the concatenation of the parts, in order, is the input list itself, so
no unit is dropped, duplicated or reordered and there is no gap or
overlap between parts. -/
theorem c1_partition_coverage (units : List Nat) (maxW : Int) (strict : Bool)
    (bds : List Nat) (_hm : 0 < maxW) :
    (partitions units (splitPointsEpub units maxW strict)).flatten = units ∧
    (partitions units (splitPointsPdf units maxW strict bds)).flatten = units :=
  ⟨(epub_final_props units maxW strict).2.2.2.2.1,
   (pdf_final_props units maxW strict bds).2.2.2.2.2⟩

theorem c1_partition_coverage_witness :
    (0 : Int) < 10 ∧
    ((partitions [5, 7] (splitPointsEpub [5, 7] 10 false)).flatten = [5, 7] ∧
     (partitions [5, 7] (splitPointsPdf [5, 7] 10 false [0])).flatten = [5, 7]) :=
  ⟨by decide, c1_partition_coverage [5, 7] 10 false [0] (by decide)⟩

/-- Claim C2 (counterexample): with pages of word counts 10, 10, 4, 10,
a budget of 25, strict boundary mode and the boundary set containing
only index 2, overflow happens at unit 3 with usable boundary b = 2;
the code closes the first partition at index 2 (the split-point list is
2, 3), not at b - 1 = 1 as the claim states. -/
theorem c2_counterexample :
    closestBoundary [2] 3 = some 2 ∧
    splitPointsPdf [10, 10, 4, 10] 25 true [2] = [2, 3] ∧
    (splitPointsPdf [10, 10, 4, 10] 25 true [2]).head? ≠ some 1 := by decide

/-- Claim C2 (amended): in the page-based partitioner, when strict
boundary alignment is on, the boundary set is non-empty, appending unit
`i` would overflow, and the largest flagged index `b ≤ i` satisfies
`b > i - 5`, the step closes the previous partition at index `b` (not
`b - 1`), resets the accumulator to exactly the units `b + 1` through
`i` (unit `i` included) with their word counts summed, and moves on to
unit `i + 1` without re-checking unit `i`. -/
theorem c2_boundary_split (units : List Nat) (maxW : Int) (bds : List Nat)
    (s : SplitState) (i wc b : Nat)
    (hcur : s.cur ≠ []) (hov : (s.cwc : Int) + (wc : Int) > maxW)
    (hbds : bds ≠ []) (hcb : closestBoundary bds i = some b) (hwin : b + 5 > i) :
    pdfStep units maxW true bds i wc s =
      ⟨s.splits ++ [b], ((units.drop (b + 1)).take (i - b)).sum,
        (units.drop (b + 1)).take (i - b)⟩ := by
  rw [pdfStep, if_pos ⟨hov, hcur⟩, if_pos ⟨rfl, hbds⟩, hcb]
  show (if b + 5 > i then _ else _) = _
  rw [if_pos hwin]

theorem c2_boundary_split_witness :
    pdfStep [10, 10, 4, 10] 25 true [2] 3 10 ⟨[], 24, [10, 10, 4]⟩ =
      ⟨[2], 10, [10]⟩ :=
  (c2_boundary_split [10, 10, 4, 10] 25 [2] ⟨[], 24, [10, 10, 4]⟩ 3 10 2
    (by decide) (by decide) (by decide) (by decide) (by decide)).trans (by decide)

/-- Claim C3 (counterexample): in the chapter-based partitioner with
strict off, units of word counts 10 and 100 and a budget of 50, the
oversized unit 100 is absorbed into the partition of unit 0 (the
accumulator held 10 < 40 percent of 50), so it does not become a
singleton partition. -/
theorem c3_counterexample :
    (50 : Int) < ((100 : Nat) : Int) ∧ (100 : Nat) ∈ ([10, 100] : List Nat) ∧
    partitions [10, 100] (splitPointsEpub [10, 100] 50 false) = [[10, 100]] ∧
    ([10, 100] : List Nat) ≠ [100] := by decide

/-- Claim C3 (amended): in the chapter-based partitioner with
strict = true and a positive budget, every unit whose word count
exceeds the budget ends up as a singleton partition. -/
theorem c3_strict_oversized_singleton (units : List Nat) (maxW : Int) (_hm : 0 < maxW) :
    ∀ p ∈ partitions units (splitPointsEpub units maxW true),
      ∀ u ∈ p, maxW < (u : Int) → p = [u] :=
  fun p hp u hu hov =>
    (epub_final_props units maxW true).2.2.2.2.2.2 rfl p hp u hu hov

theorem c3_strict_oversized_singleton_witness :
    (0 : Int) < 10 ∧ (10 : Int) < ((20 : Nat) : Int) ∧
    ([20] : List Nat) ∈ partitions [3, 20] (splitPointsEpub [3, 20] 10 true) ∧
    ([20] : List Nat) = [20] :=
  ⟨by decide, by decide, by decide,
    c3_strict_oversized_singleton [3, 20] 10 (by decide) [20] (by decide) 20
      (by decide) (by decide)⟩

/-- Claim C4 (counterexample): the core chapter-based partition run,
invoked directly with max_words = 0, does not fail: it returns a
normal partition list (here split points 0 and 1), whereas the spec's
partition contract would return an InvalidConfiguration error. -/
theorem c4_counterexample :
    epubCoreRun [10, 10] 0 false = Except.ok [0, 1] ∧
    partitionContractSpec [10, 10] 0 false =
      Except.error SplitError.invalidConfiguration ∧
    epubCoreRun [10, 10] 0 false ≠ partitionContractSpec [10, 10] 0 false := by
  decide

/-- Claim C4 (amended): the non-positive budget check lives in the CLI
front ends, which exit with code 1 before the core is invoked, while
the core itself has no error path at all: for every unit sequence,
every max_words (non-positive included) and every strict flag it
returns a partition list without raising. -/
theorem c4_no_core_error (units : List Nat) (maxW : Int) (strict : Bool) :
    (maxW ≤ 0 → cliValidateMaxWords maxW = some 1) ∧
    epubCoreRun units maxW strict = Except.ok (splitPointsEpub units maxW strict) := by
  constructor
  · intro h
    rw [cliValidateMaxWords, if_pos h]
  · rfl

theorem c4_no_core_error_witness :
    cliValidateMaxWords 0 = some 1 ∧
    epubCoreRun [5] 0 false = Except.ok (splitPointsEpub [5] 0 false) :=
  ⟨(c4_no_core_error [5] 0 false).1 (by decide), (c4_no_core_error [5] 0 false).2⟩

/-- Claim C5 (counterexample): the page-based partitioner in strict
mode with a non-empty boundary set can emit an empty partition on a
non-empty input: pages of word counts 10, 10, 10, 10 with budget 15
and boundary set containing index 1 give split points 1, 1, 3, whose
middle part is empty. -/
theorem c5_counterexample :
    ([10, 10, 10, 10] : List Nat) ≠ [] ∧ (0 : Int) < 15 ∧
    partitions [10, 10, 10, 10] (splitPointsPdf [10, 10, 10, 10] 15 true [1]) =
      [[10, 10], [], [10, 10]] ∧
    [] ∈ partitions [10, 10, 10, 10] (splitPointsPdf [10, 10, 10, 10] 15 true [1]) := by
  decide

/-- Claim C5 (amended): for every non-empty unit sequence, the
chapter-based partitioner emits no empty partition for any budget and
strict flag, and the page-based partitioner emits no empty partition
whenever strict is off or the boundary set is empty; only the
page-based strict mode with boundaries can produce one. -/
theorem c5_nondegeneracy (units : List Nat) (maxW : Int) (strict : Bool)
    (bds : List Nat) (h : units ≠ []) :
    partitions units (splitPointsEpub units maxW strict) ≠ [] ∧
    partitions units (splitPointsPdf units maxW strict bds) ≠ [] ∧
    (∀ p ∈ partitions units (splitPointsEpub units maxW strict), p ≠ []) ∧
    (strict = false ∨ bds = [] →
      ∀ p ∈ partitions units (splitPointsPdf units maxW strict bds), p ≠ []) := by
  obtain ⟨hch, hbd, _, hlaste, _, _, _⟩ := epub_final_props units maxW strict
  obtain ⟨_, hchS, hbd', _, hlastp, _⟩ := pdf_final_props units maxW strict bds
  have hnee : splitPointsEpub units maxW strict ≠ [] := by
    intro hnil
    have := hlaste h
    rw [hnil] at this
    exact absurd this (by simp)
  have hnep : splitPointsPdf units maxW strict bds ≠ [] := by
    intro hnil
    have := hlastp h
    rw [hnil] at this
    exact absurd this (by simp)
  refine ⟨partsFrom_ne_nil units 0 hnee, partsFrom_ne_nil units 0 hnep, ?_, ?_⟩
  · exact parts_nonempty units (splitPointsEpub units maxW strict) 0 hch hbd
      (fun y _ => Nat.zero_le y)
  · intro hmode
    exact parts_nonempty units (splitPointsPdf units maxW strict bds) 0 (hchS hmode) hbd'
      (fun y _ => Nat.zero_le y)

theorem c5_nondegeneracy_witness :
    partitions [3] (splitPointsEpub [3] 5 false) ≠ [] ∧
    ([3] : List Nat) ∈ partitions [3] (splitPointsEpub [3] 5 false) ∧
    ([3] : List Nat) ≠ [] ∧
    ([3] : List Nat) ∈ partitions [3] (splitPointsPdf [3] 5 false []) ∧
    ([3] : List Nat) ≠ ([] : List Nat) :=
  ⟨(c5_nondegeneracy [3] 5 false [] (by decide)).1,
   by decide, (c5_nondegeneracy [3] 5 false [] (by decide)).2.2.1 [3] (by decide),
   by decide, (c5_nondegeneracy [3] 5 false [] (by decide)).2.2.2 (Or.inl rfl) [3] (by decide)⟩

/-- Claim C6 (counterexample): a unit whose first line matches a
heading pattern and is itself a short title followed by a blank second
line is flagged twice, so the detector's output is not a set and a
unit index can appear more than once. -/
theorem c6_counterexample :
    (detect ["chapter 1\n\nmore"]).count 0 = 2 ∧
    ¬(detect ["chapter 1\n\nmore"]).count 0 ≤ 1 := by decide

/-- Claim C6 (amended): the boundary detector returns a list of unit
indices in which each unit index appears at most six times: at most one
flag per heading-pattern match among the unit's first five lines, plus
at most one flag from the short-title rule, which ends the unit's scan. -/
theorem c6_flag_bound (texts : List String) (i : Nat) : (detect texts).count i ≤ 6 :=
  detectFrom_count_le texts 0 i

/-- Claim C7: on word counts 30000, 30000, 30000 with budget 80000 and
strict off, the chapter-based partitioner returns exactly two
partitions, units 0-1 (60000 words) and unit 2 (30000 words). -/
theorem c7_threshold_behavior :
    splitPointsEpub [30000, 30000, 30000] 80000 false = [1, 2] ∧
    partitions [30000, 30000, 30000] (splitPointsEpub [30000, 30000, 30000] 80000 false) =
      [[30000, 30000], [30000]] := by decide

/-- Claim C8: the unified dispatch returns the empty list for the three
unimplemented conversions (PDF to PDF, EPUB to PDF, PDF to EPUB)
without invoking any converter, the CLI then exits with code 1, and
exit code 0 happens exactly when the result list is non-empty. -/
theorem c8_unsupported_conversions (convert : InFmt → OutFmt → List String) :
    splitBook InFmt.pdf OutFmt.pdf convert = [] ∧
    splitBook InFmt.epub OutFmt.pdf convert = [] ∧
    splitBook InFmt.pdf OutFmt.epub convert = [] ∧
    mainExitCode (splitBook InFmt.pdf OutFmt.pdf convert) = 1 ∧
    mainExitCode (splitBook InFmt.epub OutFmt.pdf convert) = 1 ∧
    mainExitCode (splitBook InFmt.pdf OutFmt.epub convert) = 1 ∧
    ∀ r : List String, mainExitCode r = 0 ↔ r ≠ [] := by
  refine ⟨rfl, rfl, rfl, rfl, rfl, rfl, ?_⟩
  intro r
  rw [mainExitCode]
  by_cases h : r = []
  · rw [if_pos h]
    simp [h]
  · rw [if_neg h]
    simp [h]

theorem c8_unsupported_conversions_witness :
    splitBook InFmt.pdf OutFmt.pdf (fun _ _ => ["out.md"]) = [] ∧
    mainExitCode (splitBook InFmt.pdf OutFmt.pdf (fun _ _ => ["out.md"])) = 1 ∧
    (mainExitCode ["out.md"] = 0 ↔ (["out.md"] : List String) ≠ []) :=
  ⟨(c8_unsupported_conversions (fun _ _ => ["out.md"])).1,
   (c8_unsupported_conversions (fun _ _ => ["out.md"])).2.2.2.1,
   (c8_unsupported_conversions (fun _ _ => ["out.md"])).2.2.2.2.2.2 ["out.md"]⟩

/-- Claim C9: in the chapter-based partitioner with a positive budget,
every emitted partition of at least two units exceeds the budget by at
most its final unit (its word count minus the last unit's word count is
at most max_words), and a partition whose first unit is oversized never
has a second unit. -/
theorem c9_overflow_bounded (units : List Nat) (maxW : Int) (strict : Bool)
    (_hm : 0 < maxW) :
    ∀ p ∈ partitions units (splitPointsEpub units maxW strict),
      (2 ≤ p.length → (p.dropLast.sum : Int) ≤ maxW) ∧
      (∀ u, p.head? = some u → maxW < (u : Int) → p.length = 1) := by
  intro p hp
  have hgood := (epub_final_props units maxW strict).2.2.2.2.2.1 p hp
  refine ⟨hgood, ?_⟩
  intro u hu hover
  rcases p with _ | ⟨a, t⟩
  · exact absurd hu (by simp)
  · have hau : a = u := by simpa using hu
    subst hau
    rcases t with _ | ⟨x, xs⟩
    · rfl
    · exfalso
      have h2 : 2 ≤ (a :: x :: xs).length := by
        simp only [List.length_cons]
        omega
      have hle := hgood h2
      have hds : (a :: x :: xs).dropLast = a :: (x :: xs).dropLast := rfl
      rw [hds, List.sum_cons] at hle
      omega

theorem c9_overflow_bounded_witness :
    (0 : Int) < 10 ∧ 2 ≤ ([4, 5] : List Nat).length ∧
    ((([4, 5] : List Nat).dropLast.sum : Int) ≤ 10) :=
  ⟨by decide, by decide,
    ((c9_overflow_bounded [4, 5] 10 false (by decide)) [4, 5] (by decide)).1 (by decide)⟩

/-- Claim C10: for every non-empty unit sequence, every budget, every
strict flag and every boundary set, the split-point lists of both
partitioners are non-empty and end exactly at the index of the last
unit. -/
theorem c10_final_split_point (units : List Nat) (maxW : Int) (strict : Bool)
    (bds : List Nat) (h : units ≠ []) :
    splitPointsEpub units maxW strict ≠ [] ∧
    (splitPointsEpub units maxW strict).getLast? = some (units.length - 1) ∧
    splitPointsPdf units maxW strict bds ≠ [] ∧
    (splitPointsPdf units maxW strict bds).getLast? = some (units.length - 1) := by
  have he := (epub_final_props units maxW strict).2.2.2.1 h
  have hp := (pdf_final_props units maxW strict bds).2.2.2.2.1 h
  refine ⟨?_, he, ?_, hp⟩
  · intro hnil
    rw [hnil] at he
    exact absurd he (by simp)
  · intro hnil
    rw [hnil] at hp
    exact absurd hp (by simp)

theorem c10_final_split_point_witness :
    ([3] : List Nat) ≠ [] ∧
    splitPointsEpub [3] 5 false ≠ [] ∧
    (splitPointsEpub [3] 5 false).getLast? = some 0 ∧
    splitPointsPdf [3] 5 false [] ≠ [] ∧
    (splitPointsPdf [3] 5 false []).getLast? = some 0 := by
  have h := c10_final_split_point [3] 5 false [] (by decide)
  exact ⟨by decide, h.1, h.2.1, h.2.2.1, h.2.2.2⟩
